import Mathlib

/-!
Verification of the image-steganography engine of `DataTransformationApp`
(`src/encryption/image_steganography.py`, class `ImageSteganography`).

Modelling conventions (shallow embedding):

* Python strings (secret text, delimiter, method and format tags, PIL mode
  tags) are sequences of code points, modelled as `List Nat`.
  `str.upper` / `str.lower` become `pyUpper` / `pyLower` (ASCII case maps).
* A decoded PIL image in `RGB` mode is `RGBImage`: its `getdata()` pixel list
  (raster order, length `width * height`) plus the size.  PNG encode/decode
  is lossless and treated as the opaque collaborator of the spec, so
  `_image_to_bytes` produces an `EncodedImage` that keeps the pixel data and
  records the format string passed to `Image.save`.
* The grayscale image used by the DCT path is a sample function
  `Nat → Nat → ℚ` together with its `height`/`width`; `numpy` float64
  arithmetic is modelled exactly over `ℚ`, and `np.round` (half to even) is
  `npRound`.  `scipy.fftpack.dctn` / `idctn` are external library
  primitives, modelled as opaque block transforms passed in as parameters
  (`dctn`, `idctn`), exactly like the opaque `Image` collaborator.
* Python exceptions are `Except.error`; the wrapper messages added by the
  outer `try/except` blocks are modelled as fixed message constants.
* `format(ord(char), '08b')` pads the minimal binary representation of the
  code point on the left with zeros to a minimum width of 8; `natBitsGo`
  computes that minimal representation with structural (fuel) recursion so
  that the kernel can evaluate it.
-/

/-- List concatMap (`itertools`-free), used to keep every definition structurally
recursive and kernel-evaluable. -/
def listFlatMap (f : α → List β) : List α → List β
  | [] => []
  | a :: l => f a ++ listFlatMap f l

/-- Minimal big-endian binary representation, with explicit fuel so that the
recursion is structural.  `natBitsGo n m` equals the digits of `m` whenever
`m ≤ n`. -/
def natBitsGo : Nat → Nat → List Bool
  | 0, _ => []
  | fuel + 1, n => if n = 0 then [] else natBitsGo fuel (n / 2) ++ [n % 2 == 1]

/-- Python `bin(n)` digit list: minimal binary representation, `[false]` for 0. -/
def natBits (n : Nat) : List Bool :=
  if n = 0 then [false] else natBitsGo n n

/-- Python `format(c, '08b')`: the binary representation of the code point,
left padded with zeros to a minimum width of 8.  Code points above 255
produce more than 8 bits. -/
def charBits (c : Nat) : List Bool :=
  let bs := natBits c
  if bs.length < 8 then List.replicate (8 - bs.length) false ++ bs else bs

/-- Model of `ImageSteganography._text_to_binary`: concatenation of the per-character
bit groups. -/
def textToBinary (text : List Nat) : List Bool :=
  listFlatMap charBits text

/-- Python `int(byte, 2)` for a big-endian digit list. -/
def bitsToNat (l : List Bool) : Nat :=
  l.foldl (fun acc b => 2 * acc + (if b then 1 else 0)) 0

/-- Model of `ImageSteganography._binary_to_text`: split the bit stream into 8-bit
groups, turn each complete group into one code point, drop a trailing group
shorter than 8 bits. -/
def binaryToText : List Bool → List Nat
  | b1 :: b2 :: b3 :: b4 :: b5 :: b6 :: b7 :: b8 :: rest =>
      bitsToNat [b1, b2, b3, b4, b5, b6, b7, b8] :: binaryToText rest
  | _ => []

/-- The delimiter `self.delimiter = "###END###"` as code points. -/
def delim : List Nat := [35, 35, 35, 69, 78, 68, 35, 35, 35]

/-- The literal `"ENCRYPTED:"` tag as code points. -/
def encTag : List Nat := [69, 78, 67, 82, 89, 80, 84, 69, 68, 58]

/-- The tag `"RGB"` as code points. -/
def rgbStr : List Nat := [82, 71, 66]

/-- The tag `"RGBA"` as code points. -/
def rgbaStr : List Nat := [82, 71, 66, 65]

/-- The tag `"lsb"` as code points. -/
def lsbStr : List Nat := [108, 115, 98]

/-- The tag `"dct"` as code points. -/
def dctStr : List Nat := [100, 99, 116]

/-- The tag `"PNG"` as code points. -/
def pngStr : List Nat := [80, 78, 71]

/-- Python `str.upper` on ASCII code points. -/
def pyUpper (s : List Nat) : List Nat :=
  s.map (fun c => if 97 ≤ c ∧ c ≤ 122 then c - 32 else c)

/-- Python `str.lower` on ASCII code points. -/
def pyLower (s : List Nat) : List Nat :=
  s.map (fun c => if 65 ≤ c ∧ c ≤ 90 then c + 32 else c)

/-- Python `pat in text` at position 0, i.e. `text.startswith(pat)`. -/
def startsWithTB : List Nat → List Nat → Bool
  | [], _ => true
  | _ :: _, [] => false
  | p :: ps, c :: cs => p == c && startsWithTB ps cs

/-- Python `text.split(d)[0]` guarded by `d in text`: the segment of `text` before
the first occurrence of `d`, or `none` when `d` does not occur. -/
def takeBeforeDelim (d : List Nat) : List Nat → Option (List Nat)
  | [] => none
  | c :: rest =>
      if startsWithTB d (c :: rest) then some []
      else (takeBeforeDelim d rest).map (fun t => c :: t)

/-- Python truthiness of an optional string (`None` and `""` are falsy). -/
def pythonTruthy : Option (List Nat) → Bool
  | none => false
  | some [] => false
  | some (_ :: _) => true

/-- Python `str(channel & 1)` read as a bit. -/
def lsbBit (n : Nat) : Bool := n &&& 1 == 1

/-- Python `(channel & 0xFE) | int(bit)`: overwrite the least significant bit. -/
def setLsb (n : Nat) (b : Bool) : Nat :=
  n &&& 254 ||| (if b then 1 else 0)

/-- The pixel loop of `hide_text_lsb` (lines 75-100): walk the pixels in
raster order, write one payload bit into the LSB of R, then G, then B while
bits remain, and copy every later pixel unchanged. -/
def hideLsbPixels : List Bool → List (Nat × Nat × Nat) → List (Nat × Nat × Nat)
  | [], ps => ps
  | _ :: _, [] => []
  | [b1], (r, g, b) :: ps => (setLsb r b1, g, b) :: ps
  | [b1, b2], (r, g, b) :: ps => (setLsb r b1, setLsb g b2, b) :: ps
  | b1 :: b2 :: b3 :: rest, (r, g, b) :: ps =>
      (setLsb r b1, setLsb g b2, setLsb b b3) :: hideLsbPixels rest ps

/-- The pixel loop of `extract_text_lsb` (lines 126-132): the LSB of every
channel of every pixel, in raster order. -/
def extractLsbBits (ps : List (Nat × Nat × Nat)) : List Bool :=
  listFlatMap (fun p => [lsbBit p.1, lsbBit p.2.1, lsbBit p.2.2]) ps

/-- A decoded image in `RGB` mode: size plus the `getdata()` pixel list. -/
structure RGBImage where
  width : Nat
  height : Nat
  pixels : List (Nat × Nat × Nat)
deriving DecidableEq

/-- The result of `_image_to_bytes`: the pixel data of the saved image and
the format string handed to `Image.save` (PNG is lossless, so the pixel data
survives the encode/decode round trip unchanged). -/
structure EncodedImage where
  format : List Nat
  image : RGBImage
deriving DecidableEq

/-- Model of `ImageSteganography._image_to_bytes` (lines 29-36): any requested format
other than PNG is coerced to PNG before saving. -/
def imageToBytes (image : RGBImage) (format : List Nat) : EncodedImage :=
  { format := if pyUpper format != pngStr then pngStr else format
    image := image }

/-- Error message of the LSB capacity check. -/
def capacityErrMsgLsb : String := "image too small to hide the data"

/-- Error message of the DCT capacity check. -/
def capacityErrMsgDct : String := "text too long for the dct capacity"

/-- Error message when no delimiter is found by `extract_text_lsb`. -/
def notFoundMsgLsb : String := "no valid hidden text found or text corrupted"

/-- Error message when no delimiter and no printable text is found by
`extract_text_dct`. -/
def notFoundMsgDct : String := "no valid hidden dct text found or text corrupted"

/-- Error message when an encrypted payload is found without a password. -/
def missingPasswordMsg : String := "encrypted text detected but no password given"

/-- Error message for an unknown method tag in `check_capacity`. -/
def unsupportedMethodMsg : String := "unsupported method"

/-- Lines 42-46 of `hide_text_lsb`: when encryption is requested and the
password is truthy, the text is replaced by the collaborator ciphertext
prefixed with the `"ENCRYPTED:"` tag; otherwise it is left untouched.  The
text-encryption collaborator is opaque (`encryptFn`). -/
def preparedText (encryptFn : List Nat → List Nat → List Nat)
    (encryptText : Bool) (password : Option (List Nat))
    (secretText : List Nat) : List Nat :=
  if encryptText && pythonTruthy password then
    encTag ++ encryptFn secretText (password.getD [])
  else secretText

/-- Model of `ImageSteganography.hide_text_lsb` (lines 38-109) for an a priori RGB
carrier: optional encryption, delimiter append, bit encoding, capacity check
against `width * height * 3`, LSB embedding, and PNG serialization. -/
def hideTextLsb (encryptFn : List Nat → List Nat → List Nat)
    (encryptText : Bool) (password : Option (List Nat))
    (secretText : List Nat) (img : RGBImage) : Except String EncodedImage :=
  let prepared := preparedText encryptFn encryptText password secretText
  let binarySecret := textToBinary (prepared ++ delim)
  let maxBits := img.width * img.height * 3
  if binarySecret.length > maxBits then Except.error capacityErrMsgLsb
  else
    Except.ok (imageToBytes
      { width := img.width, height := img.height
        pixels := hideLsbPixels binarySecret img.pixels } pngStr)

/-- Model of `ImageSteganography.extract_text_lsb` (lines 111-156): read every LSB,
decode to text, truncate at the first delimiter (error when absent), and
handle the `"ENCRYPTED:"` tag.  The text-decryption collaborator is opaque
(`decryptFn`). -/
def extractTextLsb (decryptFn : List Nat → List Nat → List Nat)
    (isEncrypted : Bool) (password : Option (List Nat))
    (img : RGBImage) : Except String (List Nat) :=
  let extractedText := binaryToText (extractLsbBits img.pixels)
  match takeBeforeDelim delim extractedText with
  | none => Except.error notFoundMsgLsb
  | some extracted =>
      if startsWithTB encTag extracted then
        if !isEncrypted || !pythonTruthy password then
          Except.error missingPasswordMsg
        else Except.ok (decryptFn (extracted.drop 10) (password.getD []))
      else Except.ok extracted

/-- The argument of `check_capacity`: size and PIL mode tag of the carrier. -/
structure CapImage where
  width : Nat
  height : Nat
  mode : List Nat
deriving DecidableEq

/-- The dictionary returned by `check_capacity`; the `"image_size"` string is
modelled as the width/height pair. -/
structure CapacityReport where
  imageSize : Nat × Nat
  method : List Nat
  maxBits : Nat
  maxChars : Nat
  maxTextLength : Int
deriving DecidableEq

/-- The shared tail of `check_capacity` (lines 329-337): characters are 8
bits, and the delimiter length is subtracted for the text-length bound. -/
def mkCapacityReport (img : CapImage) (method : List Nat) (maxBits : Nat) :
    Except String CapacityReport :=
  Except.ok
    { imageSize := (img.width, img.height)
      method := method
      maxBits := maxBits
      maxChars := maxBits / 8
      maxTextLength := ((maxBits / 8 : Nat) : Int) - (delim.length : Int) }

/-- Model of `ImageSteganography.check_capacity` (lines 309-340). -/
def check_capacity (img : CapImage) (method : List Nat) :
    Except String CapacityReport :=
  if pyLower method == lsbStr then
    mkCapacityReport img method
      (if img.mode == rgbStr then img.width * img.height * 3
       else if img.mode == rgbaStr then img.width * img.height * 4
       else img.width * img.height)
  else if pyLower method == dctStr then
    mkCapacityReport img method ((img.height / 8) * (img.width / 8))
  else Except.error unsupportedMethodMsg

/-- Model of `np.round`: round half to even, computed from numerator and denominator
so that the kernel can evaluate it (`q.num.fdiv q.den` is `⌊q⌋`, and
`(2 * q.num + q.den).fdiv (2 * q.den)` is `⌊q + 1/2⌋`). -/
def npRound (q : ℚ) : Int :=
  let n := q.num
  let d : Int := (q.den : Int)
  if 2 * (n % d) = d then
    (if 2 ∣ n.fdiv d then n.fdiv d else n.fdiv d + 1)
  else (2 * n + d).fdiv (2 * d)

/-- Python `img_array[i:i+8, j:j+8]`: the 8×8 block with top-left corner `(i, j)`
(as a sample function; only offsets below 8 are ever read). -/
def blockAt (img : Nat → Nat → ℚ) (i j : Nat) : Nat → Nat → ℚ :=
  fun a b => img (i + a) (j + b)

/-- Python `img_array[i:i+8, j:j+8] = block`: write an 8×8 block back. -/
def writeBlock (img : Nat → Nat → ℚ) (i j : Nat) (blk : Nat → Nat → ℚ) :
    Nat → Nat → ℚ :=
  fun x y =>
    if i ≤ x ∧ x < i + 8 ∧ j ≤ y ∧ y < j + 8 then blk (x - i) (y - j)
    else img x y

/-- Python `range(0, stop, 8)` over naturals (a non-positive stop gives the
empty range). -/
def pyRange8 (stop : Nat) : List Nat :=
  (List.range ((stop + 7) / 8)).map (fun k => 8 * k)

/-- The nested block loops `for i in range(0, height - 7, 8): for j in
range(0, width - 7, 8)` in raster order. -/
def blockIndices (h w : Nat) : List (Nat × Nat) :=
  listFlatMap (fun i => (pyRange8 (w - 7)).map (fun j => (i, j)))
    (pyRange8 (h - 7))

/-- Lines 207-216 of `hide_text_dct`: parity adjustment of the quantized
coefficient.  Embedding `1` increments an even value; embedding `0` adds 1
to a non-negative odd value and subtracts 1 from a negative odd value. -/
def embedBitAdjust (bit : Bool) (quantized : Int) : Int :=
  if bit then
    (if quantized % 2 = 0 then quantized + 1 else quantized)
  else
    if quantized % 2 = 1 then
      (if 0 ≤ quantized then quantized + 1 else quantized - 1)
    else quantized

/-- The claimed parity adjustment, following the spec words for bit `0`:
"increment/decrement by 1 if currently odd, decrementing only when the
result would stay non-negative — otherwise increment". -/
def embedBitAdjustClaim (bit : Bool) (quantized : Int) : Int :=
  if bit then
    (if quantized % 2 = 0 then quantized + 1 else quantized)
  else
    if quantized % 2 = 1 then
      (if 0 ≤ quantized - 1 then quantized - 1 else quantized + 1)
    else quantized

/-- The per-block body of `hide_text_dct` (lines 195-227): transform, read
coefficient `(2, 3)`, quantize by `strength * 2`, adjust parity for the bit,
write the coefficient back, inverse transform, clip to `[0, 255]`. -/
def updateBlock (dctn idctn : (Nat → Nat → ℚ) → (Nat → Nat → ℚ))
    (strength : ℚ) (bit : Bool) (block : Nat → Nat → ℚ) : Nat → Nat → ℚ :=
  let dctBlock := dctn block
  let quantizationStep := strength * 2
  let quantized := npRound (dctBlock 2 3 / quantizationStep)
  let adjusted := embedBitAdjust bit quantized
  let newDct := fun a b =>
    if a = 2 ∧ b = 3 then (adjusted : ℚ) * quantizationStep else dctBlock a b
  let idctBlock := idctn newDct
  fun a b => max 0 (min 255 (idctBlock a b))

/-- The embedding loop of `hide_text_dct`: one bit per 8×8 block, blocks in
raster order, stopping when the bits run out. -/
def applyBlocks (dctn idctn : (Nat → Nat → ℚ) → (Nat → Nat → ℚ))
    (strength : ℚ) : List (Bool × Nat × Nat) → (Nat → Nat → ℚ) → Nat → Nat → ℚ
  | [], img => img
  | (bit, i, j) :: rest, img =>
      applyBlocks dctn idctn strength rest
        (writeBlock img i j
          (updateBlock dctn idctn strength bit (blockAt img i j)))

/-- Model of `ImageSteganography.hide_text_dct` (lines 158-242) for an a priori
grayscale carrier of the given height/width: delimiter append, bit encoding,
capacity check against the number of complete 8×8 blocks, then quantized
embedding block by block. -/
def hideTextDct (dctn idctn : (Nat → Nat → ℚ) → (Nat → Nat → ℚ))
    (strength : ℚ) (secretText : List Nat) (img : Nat → Nat → ℚ)
    (h w : Nat) : Except String (Nat → Nat → ℚ) :=
  let binarySecret := textToBinary (secretText ++ delim)
  let maxCapacity := (h / 8) * (w / 8)
  if binarySecret.length > maxCapacity then Except.error capacityErrMsgDct
  else
    Except.ok (applyBlocks dctn idctn strength
      (binarySecret.zip (blockIndices h w)) img)

/-- The bit-extraction loops of `extract_text_dct` (lines 263-286): for every
complete 8×8 block in raster order, one bit — `1` iff the quantized
coefficient at `(2, 3)` is odd. -/
def extractDctBits (dctn : (Nat → Nat → ℚ) → (Nat → Nat → ℚ))
    (strength : ℚ) (img : Nat → Nat → ℚ) (h w : Nat) : List Bool :=
  listFlatMap (fun i =>
      (pyRange8 (w - 7)).map (fun j =>
        npRound ((dctn (blockAt img i j)) 2 3 / (strength * 2)) % 2 == 1))
    (pyRange8 (h - 7))

/-- The printable-character filter of `extract_text_dct` line 297:
`ord(char) >= 32 and ord(char) <= 126 or ord(char) >= 19968`. -/
def isPrintableKeep (c : Nat) : Bool :=
  (32 ≤ c && c ≤ 126) || 19968 ≤ c

/-- Model of `ImageSteganography.extract_text_dct` (lines 244-307): decode all block
bits; truncate at the first delimiter when present; otherwise fall back to
the filtered printable characters, failing only when none remain. -/
def extractTextDct (dctn : (Nat → Nat → ℚ) → (Nat → Nat → ℚ))
    (strength : ℚ) (img : Nat → Nat → ℚ) (h w : Nat) :
    Except String (List Nat) :=
  let extractedText := binaryToText (extractDctBits dctn strength img h w)
  match takeBeforeDelim delim extractedText with
  | some extracted => Except.ok extracted
  | none =>
      let cleanText := extractedText.filter isPrintableKeep
      if 0 < cleanText.length then Except.ok cleanText
      else Except.error notFoundMsgDct

/-- A trivial stand-in for the opaque text-encryption collaborator, used
only to instantiate witnesses. -/
def idCrypt : List Nat → List Nat → List Nat := fun t _ => t

/-- The all-zero grayscale sample function. -/
def constZeroImg : Nat → Nat → ℚ := fun _ _ => 0

/-- A concrete 8×5 all-black RGB carrier (40 pixels, 120 channel slots). -/
def imgBorderCE : RGBImage :=
  { width := 8, height := 5, pixels := List.replicate 40 (0, 0, 0) }

/-- A concrete grayscale sample function on an 8×64 grid whose eight block
coefficients at `(2, 3)` (under the identity transform) spell the bit
pattern of `"A"` (`01000001`). -/
def imgDctCE : Nat → Nat → ℚ :=
  fun x y =>
    if x = 2 ∧ y % 8 = 3 ∧ (y / 8 = 1 ∨ y / 8 = 7) then 1 else 0

/-! ### Generic list lemmas -/

theorem listFlatMap_append (f : α → List β) (l1 l2 : List α) :
    listFlatMap f (l1 ++ l2) = listFlatMap f l1 ++ listFlatMap f l2 := by
  induction l1 with
  | nil => rfl
  | cons a l ih => simp [listFlatMap, ih]

theorem listFlatMap_map (f : β → List γ) (m : α → β) (l : List α) :
    listFlatMap f (l.map m) = listFlatMap (fun a => f (m a)) l := by
  induction l with
  | nil => rfl
  | cons a l ih => simp [listFlatMap, ih]

/-! ### Bit-codec lemmas -/

theorem natBitsGo_foldl : ∀ (fuel n a : Nat), n ≤ fuel →
    List.foldl (fun acc b => 2 * acc + (if b then 1 else 0)) a (natBitsGo fuel n)
      = a * 2 ^ (natBitsGo fuel n).length + n := by
  intro fuel
  induction fuel with
  | zero =>
    intro n a h
    have h0 : n = 0 := by omega
    subst h0; simp [natBitsGo]
  | succ f ih =>
    intro n a h
    by_cases h0 : n = 0
    · subst h0; simp [natBitsGo]
    · have h2 : n / 2 ≤ f := by omega
      have hmod : 2 * (n / 2) + n % 2 = n := by omega
      simp only [natBitsGo, if_neg h0, List.foldl_append, List.length_append,
        List.foldl_cons, List.foldl_nil, List.length_cons, List.length_nil]
      rw [ih (n / 2) a h2]
      have hb : (if (n % 2 == 1) = true then 1 else 0) = n % 2 := by
        rcases Nat.mod_two_eq_zero_or_one n with h | h <;> simp [h]
      rw [hb]
      calc 2 * (a * 2 ^ (natBitsGo f (n / 2)).length + n / 2) + n % 2
          = a * (2 ^ (natBitsGo f (n / 2)).length * 2) + (2 * (n / 2) + n % 2) := by
            ring
        _ = a * 2 ^ ((natBitsGo f (n / 2)).length + 0 + 1) + n := by
            rw [hmod, pow_succ]

theorem natBitsGo_length_le : ∀ (fuel k n : Nat), n ≤ fuel → n < 2 ^ k →
    (natBitsGo fuel n).length ≤ k := by
  intro fuel
  induction fuel with
  | zero =>
    intro k n h _
    have h0 : n = 0 := by omega
    subst h0; simp [natBitsGo]
  | succ f ih =>
    intro k n h hk
    by_cases h0 : n = 0
    · subst h0; simp [natBitsGo]
    · match k with
      | 0 => simp at hk; omega
      | k' + 1 =>
        have h2 : n / 2 ≤ f := by omega
        have hk2 : n / 2 < 2 ^ k' := by
          have := pow_succ 2 k'
          omega
        simp only [natBitsGo, if_neg h0, List.length_append, List.length_cons,
          List.length_nil]
        have := ih k' (n / 2) h2 hk2
        omega

theorem natBitsGo_length_gt : ∀ (fuel k n : Nat), n ≤ fuel → 2 ^ k ≤ n →
    k < (natBitsGo fuel n).length := by
  intro fuel
  induction fuel with
  | zero =>
    intro k n h hk
    have := Nat.two_pow_pos k
    omega
  | succ f ih =>
    intro k n h hk
    have h0 : n ≠ 0 := by
      have := Nat.two_pow_pos k
      omega
    match k with
    | 0 =>
      simp only [natBitsGo, if_neg h0, List.length_append, List.length_cons,
        List.length_nil]
      omega
    | k' + 1 =>
      have h2 : n / 2 ≤ f := by omega
      have hk2 : 2 ^ k' ≤ n / 2 := by
        have := pow_succ 2 k'
        omega
      simp only [natBitsGo, if_neg h0, List.length_append, List.length_cons,
        List.length_nil]
      have := ih k' (n / 2) h2 hk2
      omega

theorem bitsToNat_replicate_append (k : Nat) (bs : List Bool) :
    bitsToNat (List.replicate k false ++ bs) = bitsToNat bs := by
  induction k with
  | zero => rfl
  | succ j ih => simpa [bitsToNat, List.replicate_succ] using ih

theorem charBits_length_of_lt (c : Nat) (h : c < 256) : (charBits c).length = 8 := by
  by_cases h0 : c = 0
  · subst h0; decide
  · have h256 : c < 2 ^ 8 := by norm_num; omega
    have hle : (natBitsGo c c).length ≤ 8 := natBitsGo_length_le c 8 c le_rfl h256
    by_cases hl : (natBitsGo c c).length < 8 <;>
      simp [charBits, natBits, h0, hl] <;> omega

theorem bitsToNat_charBits (c : Nat) (h : c < 256) : bitsToNat (charBits c) = c := by
  by_cases h0 : c = 0
  · subst h0; decide
  · have hfold := natBitsGo_foldl c c 0 le_rfl
    by_cases hl : (natBitsGo c c).length < 8 <;>
      simp only [charBits, natBits, if_neg h0, hl, if_true, if_false,
        bitsToNat_replicate_append] <;>
      · show List.foldl _ 0 _ = c
        rw [hfold]; ring_nf

theorem charBits_length_gt (c : Nat) (h : 255 < c) : 8 < (charBits c).length := by
  have h0 : c ≠ 0 := by omega
  have h256 : 2 ^ 8 ≤ c := by norm_num; omega
  have hgt : 8 < (natBitsGo c c).length := natBitsGo_length_gt c 8 c le_rfl h256
  have hl : ¬ (natBitsGo c c).length < 8 := by omega
  simp [charBits, natBits, h0, hl]
  omega

theorem binaryToText_eight (l rest : List Bool) (h : l.length = 8) :
    binaryToText (l ++ rest) = bitsToNat l :: binaryToText rest := by
  rcases l with _ | ⟨b1, l⟩; · simp at h
  rcases l with _ | ⟨b2, l⟩; · simp at h
  rcases l with _ | ⟨b3, l⟩; · simp at h
  rcases l with _ | ⟨b4, l⟩; · simp at h
  rcases l with _ | ⟨b5, l⟩; · simp at h
  rcases l with _ | ⟨b6, l⟩; · simp at h
  rcases l with _ | ⟨b7, l⟩; · simp at h
  rcases l with _ | ⟨b8, l⟩; · simp at h
  have hl : l = [] := by
    simp only [List.length_cons] at h
    have : l.length = 0 := by omega
    exact List.length_eq_zero.mp this
  subst hl
  rfl

theorem binaryToText_textToBinary (ts : List Nat) (rest : List Bool)
    (h : ∀ c ∈ ts, c < 256) :
    binaryToText (textToBinary ts ++ rest) = ts ++ binaryToText rest := by
  induction ts with
  | nil => simp [textToBinary, listFlatMap]
  | cons c ts ih =>
    have hc : c < 256 := h c (by simp)
    have hts : ∀ x ∈ ts, x < 256 := fun x hx => h x (by simp [hx])
    have step : textToBinary (c :: ts) = charBits c ++ textToBinary ts := by
      simp [textToBinary, listFlatMap]
    rw [step, List.append_assoc,
      binaryToText_eight (charBits c) _ (charBits_length_of_lt c hc),
      bitsToNat_charBits c hc, ih hts]
    rfl

theorem textToBinary_length (ts : List Nat) (h : ∀ c ∈ ts, c < 256) :
    (textToBinary ts).length = 8 * ts.length := by
  induction ts with
  | nil => rfl
  | cons c ts ih =>
    have hc : c < 256 := h c (by simp)
    have hts : ∀ x ∈ ts, x < 256 := fun x hx => h x (by simp [hx])
    have step : textToBinary (c :: ts) = charBits c ++ textToBinary ts := by
      simp [textToBinary, listFlatMap]
    rw [step]
    simp only [List.length_append, charBits_length_of_lt c hc, ih hts,
      List.length_cons]
    ring

/-! ### Delimiter-search lemmas -/

theorem startsWithTB_append_left : ∀ (d s j : List Nat), d.length ≤ s.length →
    startsWithTB d (s ++ j) = startsWithTB d s := by
  intro d
  induction d with
  | nil => intro s j _; rfl
  | cons p ps ih =>
    intro s j h
    match s with
    | [] => simp at h
    | c :: cs =>
      have : ps.length ≤ cs.length := by simp at h; omega
      simp [startsWithTB, ih cs j this]

theorem startsWithTB_self_append : ∀ (d j : List Nat),
    startsWithTB d (d ++ j) = true := by
  intro d j
  induction d with
  | nil => rfl
  | cons p ps ih => simp [startsWithTB, ih]

theorem takeBeforeDelim_append_extend (d : List Nat) (hd : d ≠ []) :
    ∀ (t j : List Nat), takeBeforeDelim d (t ++ d) = some t →
    takeBeforeDelim d (t ++ (d ++ j)) = some t := by
  intro t
  induction t with
  | nil =>
    intro j _
    match d, hd with
    | c :: ds, _ =>
      have hs : startsWithTB (c :: ds) (c :: (ds ++ j)) = true := by
        have := startsWithTB_self_append (c :: ds) j
        simpa using this
      simp [takeBeforeDelim, hs]
  | cons a t' ih =>
    intro j h
    simp only [List.cons_append] at h ⊢
    simp only [takeBeforeDelim] at h ⊢
    by_cases hs : startsWithTB d (a :: (t' ++ d)) = true
    · rw [if_pos hs] at h
      simp at h
    · rw [if_neg hs] at h
      have hlen : d.length ≤ (a :: (t' ++ d)).length := by
        simp; omega
      have hs2 : startsWithTB d (a :: (t' ++ (d ++ j)))
          = startsWithTB d (a :: (t' ++ d)) := by
        have heq : a :: (t' ++ (d ++ j)) = (a :: (t' ++ d)) ++ j := by simp
        rw [heq]
        exact startsWithTB_append_left d _ j hlen
      rw [hs2, if_neg hs]
      obtain ⟨t'', ht'', hmap⟩ := Option.map_eq_some'.mp h
      have heq2 : t'' = t' := by
        have := (List.cons.injEq a t'' a t').mp hmap
        exact this.2
      subst heq2
      rw [ih j ht'']
      rfl

/-! ### LSB embedding lemmas -/

theorem setLsb_and_one (n : Nat) (b : Bool) :
    setLsb n b &&& 1 = (if b then 1 else 0) := by
  apply Nat.eq_of_testBit_eq
  intro i
  match i with
  | 0 =>
    simp only [setLsb, Nat.testBit_and, Nat.testBit_or]
    have h254 : Nat.testBit 254 0 = false := by decide
    have h1 : Nat.testBit 1 0 = true := by decide
    rw [h254, h1]
    cases b <;> simp
  | i + 1 =>
    have h1 : Nat.testBit 1 (i + 1) = false := by
      rw [Nat.testBit_succ]
      simp [Nat.zero_testBit]
    rw [Nat.testBit_and, h1, Bool.and_false]
    cases b
    · simp [Nat.zero_testBit]
    · simp [h1]

theorem lsbBit_setLsb (n : Nat) (b : Bool) : lsbBit (setLsb n b) = b := by
  rw [lsbBit, setLsb_and_one]
  cases b <;> rfl

theorem extractLsbBits_cons (p : Nat × Nat × Nat) (tl : List (Nat × Nat × Nat)) :
    extractLsbBits (p :: tl)
      = lsbBit p.1 :: lsbBit p.2.1 :: lsbBit p.2.2 :: extractLsbBits tl := rfl

theorem drop_add_three (n : Nat) (x y z : α) (l : List α) :
    List.drop (n + 3) (x :: y :: z :: l) = List.drop n l := by
  rw [show n + 3 = n + 1 + 1 + 1 from rfl]
  simp [List.drop_succ_cons]

theorem extractLsb_hideLsb : ∀ (ps : List (Nat × Nat × Nat)) (bits : List Bool),
    bits.length ≤ 3 * ps.length →
    extractLsbBits (hideLsbPixels bits ps)
      = bits ++ (extractLsbBits ps).drop bits.length := by
  intro ps
  induction ps with
  | nil =>
    intro bits h
    match bits with
    | [] => simp [hideLsbPixels]
    | b :: bs => simp at h
  | cons p tl ih =>
    intro bits h
    obtain ⟨r, g, b⟩ := p
    match bits with
    | [] => simp [hideLsbPixels]
    | [b1] =>
      rw [show hideLsbPixels [b1] ((r, g, b) :: tl)
            = (setLsb r b1, g, b) :: tl from rfl,
        extractLsbBits_cons, extractLsbBits_cons]
      simp [lsbBit_setLsb]
    | [b1, b2] =>
      rw [show hideLsbPixels [b1, b2] ((r, g, b) :: tl)
            = (setLsb r b1, setLsb g b2, b) :: tl from rfl,
        extractLsbBits_cons, extractLsbBits_cons]
      simp [lsbBit_setLsb]
    | b1 :: b2 :: b3 :: rest =>
      have hr : rest.length ≤ 3 * tl.length := by
        simp only [List.length_cons] at h
        omega
      rw [show hideLsbPixels (b1 :: b2 :: b3 :: rest) ((r, g, b) :: tl)
            = (setLsb r b1, setLsb g b2, setLsb b b3) :: hideLsbPixels rest tl
          from rfl,
        extractLsbBits_cons, ih rest hr, extractLsbBits_cons]
      simp only [lsbBit_setLsb, List.length_cons]
      rw [show rest.length + 1 + 1 + 1 = rest.length + 3 from rfl,
        drop_add_three]
      simp

theorem hideLsbPixels_drop : ∀ (ps : List (Nat × Nat × Nat)) (bits : List Bool),
    (hideLsbPixels bits ps).drop ((bits.length + 2) / 3)
      = ps.drop ((bits.length + 2) / 3) := by
  intro ps
  induction ps with
  | nil =>
    intro bits
    match bits with
    | [] => rfl
    | b :: bs => simp [hideLsbPixels]
  | cons p tl ih =>
    intro bits
    obtain ⟨r, g, b⟩ := p
    match bits with
    | [] => rfl
    | [b1] =>
      rw [show hideLsbPixels [b1] ((r, g, b) :: tl)
            = (setLsb r b1, g, b) :: tl from rfl,
        show (([b1] : List Bool).length + 2) / 3 = 1 from by norm_num]
      simp
    | [b1, b2] =>
      rw [show hideLsbPixels [b1, b2] ((r, g, b) :: tl)
            = (setLsb r b1, setLsb g b2, b) :: tl from rfl,
        show (([b1, b2] : List Bool).length + 2) / 3 = 1 from by norm_num]
      simp
    | b1 :: b2 :: b3 :: rest =>
      have hq : (rest.length + 3 + 2) / 3 = (rest.length + 2) / 3 + 1 := by
        omega
      rw [show hideLsbPixels (b1 :: b2 :: b3 :: rest) ((r, g, b) :: tl)
            = (setLsb r b1, setLsb g b2, setLsb b b3) :: hideLsbPixels rest tl
          from rfl]
      simp only [List.length_cons]
      rw [show rest.length + 1 + 1 + 1 = rest.length + 3 from rfl, hq,
        List.drop_succ_cons, List.drop_succ_cons]
      exact ih rest

/-! ### Block-grid lemmas for the DCT path -/

theorem pyRange8_sub7 (n : Nat) :
    pyRange8 (n - 7) = (List.range (n / 8)).map (fun k => 8 * k) := by
  unfold pyRange8
  congr 1
  congr 1
  omega

theorem grid_length (g : Nat → Nat → β) : ∀ (R C : Nat),
    (listFlatMap (fun i => (List.range C).map (g i)) (List.range R)).length
      = R * C := by
  intro R C
  induction R with
  | zero => simp [List.range_zero, listFlatMap]
  | succ r ih =>
    rw [List.range_succ, listFlatMap_append, List.length_append, ih]
    simp [listFlatMap]
    ring

theorem grid_get (g : Nat → Nat → β) : ∀ (R C bi bj : Nat), bi < R → bj < C →
    (listFlatMap (fun i => (List.range C).map (g i)) (List.range R))[bi * C + bj]?
      = some (g bi bj) := by
  intro R
  induction R with
  | zero => intro C bi bj h _; omega
  | succ r ih =>
    intro C bi bj hbi hbj
    rw [List.range_succ, listFlatMap_append]
    have hone : listFlatMap (fun i => (List.range C).map (g i)) [r]
        = (List.range C).map (g r) := by
      simp [listFlatMap]
    rw [hone]
    by_cases hc : bi < r
    · have hidx : bi * C + bj < (listFlatMap
          (fun i => (List.range C).map (g i)) (List.range r)).length := by
        rw [grid_length]
        calc bi * C + bj < bi * C + C := by omega
          _ = (bi + 1) * C := by ring
          _ ≤ r * C := Nat.mul_le_mul_right C hc
      rw [List.getElem?_append_left hidx]
      exact ih C bi bj hc hbj
    · have hbir : bi = r := by omega
      subst hbir
      have hlen : (listFlatMap
          (fun i => (List.range C).map (g i)) (List.range bi)).length
          = bi * C := grid_length g bi C
      have hge : (listFlatMap
          (fun i => (List.range C).map (g i)) (List.range bi)).length
          ≤ bi * C + bj := by omega
      rw [List.getElem?_append_right hge, hlen]
      have hsub : bi * C + bj - bi * C = bj := by omega
      rw [hsub, List.getElem?_map, List.getElem?_range hbj]
      rfl

theorem extractDctBits_eq_grid (dctn : (Nat → Nat → ℚ) → (Nat → Nat → ℚ))
    (strength : ℚ) (img : Nat → Nat → ℚ) (h w : Nat) :
    extractDctBits dctn strength img h w
      = listFlatMap (fun bi => (List.range (w / 8)).map (fun bj =>
          npRound ((dctn (blockAt img (8 * bi) (8 * bj))) 2 3
            / (strength * 2)) % 2 == 1))
        (List.range (h / 8)) := by
  unfold extractDctBits
  rw [pyRange8_sub7 h, pyRange8_sub7 w, listFlatMap_map]
  congr 1
  funext bi
  rw [List.map_map]
  rfl

theorem blockIndices_eq_grid (h w : Nat) :
    blockIndices h w
      = listFlatMap (fun bi => (List.range (w / 8)).map (fun bj =>
          (8 * bi, 8 * bj))) (List.range (h / 8)) := by
  unfold blockIndices
  rw [pyRange8_sub7 h, pyRange8_sub7 w, listFlatMap_map]
  congr 1
  funext bi
  rw [List.map_map]
  rfl

theorem applyBlocks_outside (dctn idctn : (Nat → Nat → ℚ) → (Nat → Nat → ℚ))
    (strength : ℚ) (x y : Nat) :
    ∀ (pairs : List (Bool × Nat × Nat)) (img : Nat → Nat → ℚ),
    (∀ pr ∈ pairs,
      ¬ (pr.2.1 ≤ x ∧ x < pr.2.1 + 8 ∧ pr.2.2 ≤ y ∧ y < pr.2.2 + 8)) →
    applyBlocks dctn idctn strength pairs img x y = img x y := by
  intro pairs
  induction pairs with
  | nil => intro img _; rfl
  | cons pr rest ih =>
    intro img hout
    obtain ⟨bit, i, j⟩ := pr
    have hhead := hout (bit, i, j) (by simp)
    have htail : ∀ pr ∈ rest,
        ¬ (pr.2.1 ≤ x ∧ x < pr.2.1 + 8 ∧ pr.2.2 ≤ y ∧ y < pr.2.2 + 8) :=
      fun pr hpr => hout pr (by simp [hpr])
    show applyBlocks dctn idctn strength rest _ x y = img x y
    rw [ih _ htail]
    simp only [writeBlock]
    rw [if_neg]
    exact hhead

theorem zip_snd_mem_take : ∀ (bs : List α) (is : List β) (p : α × β),
    p ∈ bs.zip is → p.2 ∈ is.take bs.length := by
  intro bs
  induction bs with
  | nil => intro is p h; simp [List.zip] at h
  | cons b bs ih =>
    intro is p h
    match is with
    | [] => simp [List.zip] at h
    | i :: is =>
      rw [List.zip_cons_cons] at h
      rcases List.mem_cons.mp h with h1 | h2
      · subst h1
        simp [List.take]
      · have := ih is p h2
        simp only [List.length_cons, List.take_succ_cons, List.mem_cons]
        right
        exact this

/-- A 1×1 carrier, too small for any payload (the delimiter alone needs 72
bits). -/
def imgTiny : RGBImage := { width := 1, height := 1, pixels := [(0, 0, 0)] }

/-! ### Claims -/

/-- Claim C9: calling `hide_text_lsb` with `encrypt_text=True` but
`password=None` raises no missing-password error and performs no encryption;
the call behaves identically to one with `encrypt_text=False`, embedding the
plaintext without the `"ENCRYPTED:"` tag. -/
theorem encrypt_flag_without_password_noop
    (encryptFn : List Nat → List Nat → List Nat) (t : List Nat)
    (img : RGBImage) :
    hideTextLsb encryptFn true none t img
      = hideTextLsb encryptFn false none t img := rfl

/-- Claim C10: every successful `hide_text_lsb` call returns an image with
the width and height of the input carrier, and the serializer
`_image_to_bytes` coerces every requested format to PNG, so the returned
bytes are always PNG-encoded. -/
theorem hide_lsb_dims_and_png
    (encryptFn : List Nat → List Nat → List Nat) (encryptText : Bool)
    (password : Option (List Nat)) (t : List Nat) (img : RGBImage) :
    (match hideTextLsb encryptFn encryptText password t img with
     | Except.ok out => out.image.width = img.width
         ∧ out.image.height = img.height ∧ out.format = pngStr
     | Except.error _ => True)
    ∧ ∀ (img2 : RGBImage) (fmt : List Nat),
        pyUpper (imageToBytes img2 fmt).format = pngStr := by
  constructor
  · simp only [hideTextLsb]
    split_ifs with hcap
    · simp
    · simp [imageToBytes]
  · intro img2 fmt
    simp only [imageToBytes]
    by_cases hb : pyUpper fmt != pngStr
    · simp [hb]
      decide
    · simp at hb
      simp [hb]

/-- Claim C4: when the bit-encoded payload (text plus delimiter) exceeds the
method capacity — `width * height * 3` for the LSB method, `(height / 8) *
(width / 8)` complete blocks for the DCT method — embedding fails with the
capacity error; the check precedes the embedding loop, and on failure only
the error value (never a partially written image) is returned. -/
theorem hide_capacity_fail_fast
    (encryptFn : List Nat → List Nat → List Nat) (encryptText : Bool)
    (password : Option (List Nat)) (t : List Nat) (img : RGBImage)
    (dctn idctn : (Nat → Nat → ℚ) → (Nat → Nat → ℚ)) (strength : ℚ)
    (gimg : Nat → Nat → ℚ) (h w : Nat) :
    ((textToBinary (preparedText encryptFn encryptText password t ++ delim)).length
        > img.width * img.height * 3 →
      hideTextLsb encryptFn encryptText password t img
        = Except.error capacityErrMsgLsb)
    ∧ ((textToBinary (t ++ delim)).length > (h / 8) * (w / 8) →
      hideTextDct dctn idctn strength t gimg h w
        = Except.error capacityErrMsgDct) := by
  constructor
  · intro hcap
    simp only [hideTextLsb]
    rw [if_pos hcap]
  · intro hcap
    simp only [hideTextDct]
    rw [if_pos hcap]

/-- Witness for C4: the 72-bit delimiter alone overflows both a 1×1 RGB
carrier (3 bits) and an 8×8 grayscale carrier (1 block). -/
theorem hide_capacity_fail_fast_witness :
    ((textToBinary (preparedText idCrypt false none [] ++ delim)).length
        > imgTiny.width * imgTiny.height * 3
      ∧ hideTextLsb idCrypt false none [] imgTiny
          = Except.error capacityErrMsgLsb)
    ∧ ((textToBinary (([] : List Nat) ++ delim)).length > (8 / 8) * (8 / 8)
      ∧ hideTextDct id id 10 [] constZeroImg 8 8
          = Except.error capacityErrMsgDct) :=
  ⟨⟨by decide,
    (hide_capacity_fail_fast idCrypt false none [] imgTiny id id 10
      constZeroImg 8 8).1 (by decide)⟩,
   ⟨by decide,
    (hide_capacity_fail_fast idCrypt false none [] imgTiny id id 10
      constZeroImg 8 8).2 (by decide)⟩⟩

/-- Counterexample for C5: the character with code point 256 is encoded with
9 bits (`"100000000"`), not truncated to one byte, so the output length is
not `8 * len(text)`. -/
theorem text_to_binary_not_eight_bits_above_255 :
    (textToBinary [256]).length = 9
    ∧ (textToBinary [256]).length ≠ 8 * ([256] : List Nat).length
    ∧ textToBinary [256] ≠ charBits 0 := by
  refine ⟨by decide, by decide, by decide⟩

/-- Claim C5 (amended): the encoder emits one big-endian group per character
consisting of the character's code point padded to a minimum of 8 bits; for
texts whose code points are all below 256 this is exactly 8 bits per
character (length `8 * len(text)`, decodable back to the text), while a code
point above 255 produces a group strictly longer than 8 bits (no
truncation). -/
theorem text_to_binary_eight_bits_iff_byte_range (t : List Nat) :
    ((∀ c ∈ t, c < 256) → (textToBinary t).length = 8 * t.length
      ∧ binaryToText (textToBinary t) = t)
    ∧ ∀ c : Nat, 255 < c → 8 < (charBits c).length := by
  constructor
  · intro h
    refine ⟨textToBinary_length t h, ?_⟩
    have hrt := binaryToText_textToBinary t [] h
    rw [List.append_nil] at hrt
    rw [hrt, show binaryToText ([] : List Bool) = [] from rfl, List.append_nil]
  · intro c hc
    exact charBits_length_gt c hc

/-- Witness for C5: the two-character text `"hi"` encodes to 16 bits and
decodes back, and code point 300 produces 9 bits. -/
theorem text_to_binary_eight_bits_witness :
    (∀ c ∈ [104, 105], c < 256)
    ∧ (textToBinary [104, 105]).length = 8 * ([104, 105] : List Nat).length
    ∧ binaryToText (textToBinary [104, 105]) = [104, 105]
    ∧ 255 < 300 ∧ 8 < (charBits 300).length :=
  ⟨by decide,
   ((text_to_binary_eight_bits_iff_byte_range [104, 105]).1 (by decide)).1,
   ((text_to_binary_eight_bits_iff_byte_range [104, 105]).1 (by decide)).2,
   by decide,
   (text_to_binary_eight_bits_iff_byte_range [104, 105]).2 300 (by decide)⟩

/-- Counterexample for C6: for quantized value 1 (odd, non-negative) while
embedding bit 0, the code increments to 2, whereas the claimed rule
("decrement by 1 when the result stays non-negative") would give 0. -/
theorem dct_embed_zero_adjust_counterexample :
    embedBitAdjust false 1 = 2 ∧ embedBitAdjustClaim false 1 = 0
    ∧ embedBitAdjust false 1 ≠ embedBitAdjustClaim false 1 := by
  refine ⟨by decide, by decide, by decide⟩

/-- Claim C6 (amended): embedding bit 1 into an even quantized value
increments it by 1 (odd values are kept); embedding bit 0 into an odd
quantized value increments it by 1 when it is non-negative and decrements it
by 1 when it is negative; the result parity always matches the embedded
bit. -/
theorem dct_embed_parity_adjust (q k : Int) :
    embedBitAdjust true q % 2 = 1 ∧ embedBitAdjust false q % 2 = 0
    ∧ embedBitAdjust false (2 * k + 1)
        = (if 0 ≤ k then 2 * k + 2 else 2 * k)
    ∧ embedBitAdjust true (2 * k) = 2 * k + 1 := by
  refine ⟨?_, ?_, ?_, ?_⟩ <;>
    simp only [embedBitAdjust, if_true, Bool.false_eq_true, if_false] <;>
    split_ifs <;> omega

/-- Counterexample for C3: a 2×2 RGBA image gets `max_bits = 2 * 2 * 4 = 16`
from `check_capacity`, not `2 * 2 * 3` as the claimed "3 channels for color
images" formula would require. -/
theorem check_capacity_rgba_counterexample :
    (check_capacity ⟨2, 2, rgbaStr⟩ lsbStr).map (fun r => r.maxBits)
      = Except.ok 16
    ∧ (16 : Nat) ≠ 2 * 2 * 3 := by
  refine ⟨rfl, by decide⟩

/-- Claim C3 (amended): under the spatial (`lsb`) method `check_capacity`
reports `max_bits = width * height * c` with `c = 3` for RGB, `c = 4` for
RGBA and `c = 1` for any other (e.g. grayscale) mode; under the transform
(`dct`) method it reports `max_bits = (height / 8) * (width / 8)`; in both
cases `max_characters = max_bits / 8`. -/
theorem check_capacity_formula (w h : Nat) (mode : List Nat) :
    (check_capacity ⟨w, h, mode⟩ lsbStr).map (fun r => (r.maxBits, r.maxChars))
      = Except.ok
          (w * h * (if mode == rgbStr then 3 else if mode == rgbaStr then 4 else 1),
           w * h * (if mode == rgbStr then 3 else if mode == rgbaStr then 4 else 1) / 8)
    ∧ (check_capacity ⟨w, h, mode⟩ dctStr).map (fun r => (r.maxBits, r.maxChars))
      = Except.ok ((h / 8) * (w / 8), (h / 8) * (w / 8) / 8) := by
  constructor
  · simp only [check_capacity, mkCapacityReport]
    rw [show (pyLower lsbStr == lsbStr) = true from by decide]
    simp only [if_true]
    by_cases h1 : mode == rgbStr
    · simp [h1, Except.map]
    · by_cases h2 : mode == rgbaStr
      · simp [h1, h2, Except.map]
      · simp [h1, h2, Except.map]
  · simp only [check_capacity, mkCapacityReport]
    rw [show (pyLower dctStr == lsbStr) = false from by decide,
      show (pyLower dctStr == dctStr) = true from by decide]
    simp [Except.map]

/-- Claim C7: `extract_text_dct` visits every complete 8×8 block in raster
order and emits exactly one bit per block — `(height / 8) * (width / 8)`
bits in total for every image, whether or not anything was embedded — where
the bit at block index `(bi, bj)` is 1 iff
`round(coefficient(2,3) / (strength * 2))` of that block's transform is
odd. -/
theorem dct_extract_scans_all_blocks
    (dctn : (Nat → Nat → ℚ) → (Nat → Nat → ℚ)) (strength : ℚ)
    (img : Nat → Nat → ℚ) (h w bi bj : Nat) :
    (extractDctBits dctn strength img h w).length = (h / 8) * (w / 8)
    ∧ (bi < h / 8 → bj < w / 8 →
        (extractDctBits dctn strength img h w)[bi * (w / 8) + bj]?
          = some (npRound ((dctn (blockAt img (8 * bi) (8 * bj))) 2 3
              / (strength * 2)) % 2 == 1)) := by
  constructor
  · rw [extractDctBits_eq_grid, grid_length]
  · intro hbi hbj
    rw [extractDctBits_eq_grid]
    exact grid_get
      (fun bi bj => npRound ((dctn (blockAt img (8 * bi) (8 * bj))) 2 3
        / (strength * 2)) % 2 == 1) (h / 8) (w / 8) bi bj hbi hbj

/-- Witness for C7 on a 16×16 all-zero image: four blocks are scanned and
block `(1, 1)` sits at flat index 3. -/
theorem dct_extract_scans_all_blocks_witness :
    (extractDctBits id 10 constZeroImg 16 16).length = (16 / 8) * (16 / 8)
    ∧ 1 < 16 / 8
    ∧ (extractDctBits id 10 constZeroImg 16 16)[1 * (16 / 8) + 1]?
        = some (npRound ((id (blockAt constZeroImg (8 * 1) (8 * 1))) 2 3
            / ((10 : ℚ) * 2)) % 2 == 1) :=
  ⟨(dct_extract_scans_all_blocks id 10 constZeroImg 16 16 1 1).1,
   by decide,
   (dct_extract_scans_all_blocks id 10 constZeroImg 16 16 1 1).2
     (by decide) (by decide)⟩

/-- Claim C8: frame property of both embedders.  For the LSB method, every
pixel strictly after the pixel holding the last payload bit (index
`⌈len(bits) / 3⌉` onward) is copied unchanged.  For the DCT method, every
sample outside the blocks that received a payload bit (the first
`len(bits)` complete blocks in raster order) — in particular every block
after the payload and every incomplete edge block — keeps its original
value. -/
theorem embed_frame_property
    (bits : List Bool) (ps : List (Nat × Nat × Nat))
    (dctn idctn : (Nat → Nat → ℚ) → (Nat → Nat → ℚ)) (strength : ℚ)
    (t : List Nat) (img img2 : Nat → Nat → ℚ) (h w x y : Nat) :
    (hideLsbPixels bits ps).drop ((bits.length + 2) / 3)
      = ps.drop ((bits.length + 2) / 3)
    ∧ (hideTextDct dctn idctn strength t img h w = Except.ok img2 →
       (∀ pr ∈ (blockIndices h w).take (textToBinary (t ++ delim)).length,
          ¬ (pr.1 ≤ x ∧ x < pr.1 + 8 ∧ pr.2 ≤ y ∧ y < pr.2 + 8)) →
       img2 x y = img x y) := by
  constructor
  · exact hideLsbPixels_drop ps bits
  · intro hok hout
    simp only [hideTextDct] at hok
    by_cases hcap :
        (textToBinary (t ++ delim)).length > (h / 8) * (w / 8)
    · rw [if_pos hcap] at hok
      exact absurd hok (by simp)
    · rw [if_neg hcap] at hok
      injection hok with h'
      subst h'
      apply applyBlocks_outside
      intro pr hpr
      exact hout pr.2 (zip_snd_mem_take _ _ pr hpr)

/-- The stego image produced by embedding the empty text (72 delimiter bits)
into an 80×80 all-zero grayscale carrier under identity transforms. -/
def dctFrameWitnessImg : Nat → Nat → ℚ :=
  applyBlocks id id 10
    ((textToBinary (([] : List Nat) ++ delim)).zip (blockIndices 80 80))
    constZeroImg

/-- Witness for C8: embedding one bit leaves the second pixel unchanged, and
embedding the 72-bit delimiter-only payload into an 80×80 zero image leaves
the bottom-right sample (outside the first 72 blocks) untouched. -/
theorem embed_frame_property_witness :
    (hideLsbPixels [true] [(0, 0, 0), (7, 7, 7)]).drop
        ((([true] : List Bool).length + 2) / 3)
      = ([((0 : Nat), (0 : Nat), (0 : Nat)), (7, 7, 7)] : List (Nat × Nat × Nat)).drop
          ((([true] : List Bool).length + 2) / 3)
    ∧ dctFrameWitnessImg 79 79 = constZeroImg 79 79 :=
  ⟨(embed_frame_property [true] [(0, 0, 0), (7, 7, 7)] id id 10 []
      constZeroImg dctFrameWitnessImg 80 80 79 79).1,
   (embed_frame_property [true] [(0, 0, 0), (7, 7, 7)] id id 10 []
      constZeroImg dctFrameWitnessImg 80 80 79 79).2 rfl (by decide)⟩

/-- Claim C2 (amended): when the delimiter is absent from the decoded
stream, `extract_text_lsb` always fails with the corrupted-payload error;
`extract_text_dct`, however, fails only when the decoded text also contains
no printable character (ASCII 32–126 or code point ≥ 19968) — otherwise it
returns the filtered printable characters instead of raising. -/
theorem extract_delimiter_absent_behavior
    (decryptFn : List Nat → List Nat → List Nat) (isEncrypted : Bool)
    (password : Option (List Nat)) (img : RGBImage)
    (dctn : (Nat → Nat → ℚ) → (Nat → Nat → ℚ)) (strength : ℚ)
    (gimg : Nat → Nat → ℚ) (h w : Nat) :
    (takeBeforeDelim delim (binaryToText (extractLsbBits img.pixels)) = none →
      extractTextLsb decryptFn isEncrypted password img
        = Except.error notFoundMsgLsb)
    ∧ (takeBeforeDelim delim
          (binaryToText (extractDctBits dctn strength gimg h w)) = none →
        ((binaryToText (extractDctBits dctn strength gimg h w)).filter
            isPrintableKeep = [] →
          extractTextDct dctn strength gimg h w
            = Except.error notFoundMsgDct)
        ∧ (0 < ((binaryToText (extractDctBits dctn strength gimg h w)).filter
              isPrintableKeep).length →
          extractTextDct dctn strength gimg h w
            = Except.ok ((binaryToText
                (extractDctBits dctn strength gimg h w)).filter
                  isPrintableKeep))) := by
  constructor
  · intro hnone
    simp only [extractTextLsb, hnone]
  · intro hnone
    constructor
    · intro hclean
      simp only [extractTextDct, hnone, hclean]
      simp
    · intro hlen
      simp only [extractTextDct, hnone]
      rw [if_pos hlen]

/-- Witness for C2: a 0×0 carrier decodes to the empty stream for both
methods; the delimiter is absent, nothing is printable, and both extractors
fail. -/
theorem extract_delimiter_absent_behavior_witness :
    takeBeforeDelim delim
        (binaryToText (extractLsbBits (RGBImage.mk 0 0 []).pixels)) = none
    ∧ extractTextLsb idCrypt false none (RGBImage.mk 0 0 [])
        = Except.error notFoundMsgLsb
    ∧ takeBeforeDelim delim
        (binaryToText (extractDctBits id 10 constZeroImg 0 0)) = none
    ∧ (binaryToText (extractDctBits id 10 constZeroImg 0 0)).filter
        isPrintableKeep = []
    ∧ extractTextDct id 10 constZeroImg 0 0 = Except.error notFoundMsgDct :=
  ⟨by decide,
   (extract_delimiter_absent_behavior idCrypt false none (RGBImage.mk 0 0 [])
     id 10 constZeroImg 0 0).1 (by decide),
   by decide,
   by decide,
   ((extract_delimiter_absent_behavior idCrypt false none (RGBImage.mk 0 0 [])
     id 10 constZeroImg 0 0).2 (by decide)).1 (by decide)⟩

theorem npRound_one : npRound 1 = 1 := by
  simp only [npRound, Rat.num_one, Rat.den_one]
  decide

theorem npRound_zero : npRound 0 = 0 := by
  simp only [npRound, Rat.num_zero, Rat.den_zero]
  decide

theorem imgDctCE_bits :
    extractDctBits id (1 / 2) imgDctCE 8 64
      = [false, true, false, false, false, false, false, true] := by
  have hdiv1 : (1 : ℚ) / ((1 / 2) * 2) = 1 := by norm_num
  have hdiv0 : (0 : ℚ) / ((1 / 2) * 2) = 0 := by norm_num
  simp only [extractDctBits,
    show pyRange8 (8 - 7) = [0] from rfl,
    show pyRange8 (64 - 7) = [0, 8, 16, 24, 32, 40, 48, 56] from rfl,
    listFlatMap, List.map, blockAt, id]
  norm_num [imgDctCE]
  rw [npRound_one, npRound_zero]
  decide

/-- Counterexample for C2: an 8×64 grayscale image whose decoded DCT bit
stream is the single character `"A"` — the delimiter is entirely absent, yet
`extract_text_dct` returns the string `"A"` (the printable fallback of lines
295-299) instead of raising an error. -/
theorem dct_extract_returns_text_without_delimiter :
    takeBeforeDelim delim
        (binaryToText (extractDctBits id (1 / 2) imgDctCE 8 64)) = none
    ∧ extractTextDct id (1 / 2) imgDctCE 8 64 = Except.ok [65] := by
  constructor
  · rw [imgDctCE_bits]
    decide
  · simp only [extractTextDct, imgDctCE_bits]
    rfl

/-- Every delimiter character is a single-byte code point. -/
theorem delim_chars_lt (c : Nat) (hc : c ∈ delim) : c < 256 := by
  simp [delim] at hc
  rcases hc with h | h | h | h | h | h <;> omega

/-- Claim C1 (amended): the LSB round trip is exact for every carrier and
every payload text that (a) consists of single-byte code points, (b) fits —
together with the delimiter — in the `width * height * 3` channel slots,
(c) does not itself produce an earlier delimiter occurrence in
`text + delimiter` (in particular does not contain `"###END###"` and does
not end with a proper prefix of it that completes an occurrence, such as
`"###END"`), and (d) does not start with the reserved `"ENCRYPTED:"` tag:
extracting right after embedding returns the text exactly. -/
theorem lsb_round_trip_conditional
    (encryptFn decryptFn : List Nat → List Nat → List Nat)
    (img : RGBImage) (t : List Nat)
    (hpx : img.pixels.length = img.width * img.height)
    (hchar : ∀ c ∈ t, c < 256)
    (hcap : (textToBinary (t ++ delim)).length ≤ img.width * img.height * 3)
    (hdelim : takeBeforeDelim delim (t ++ delim) = some t)
    (henc : startsWithTB encTag t = false) :
    Except.bind (hideTextLsb encryptFn false none t img)
      (fun out => extractTextLsb decryptFn false none out.image)
      = Except.ok t := by
  have hprep : preparedText encryptFn false none t = t := rfl
  simp only [hideTextLsb, hprep]
  rw [if_neg (by omega)]
  simp only [Except.bind, imageToBytes]
  simp only [extractTextLsb]
  have hlen : (textToBinary (t ++ delim)).length ≤ 3 * img.pixels.length := by
    rw [hpx]; omega
  rw [extractLsb_hideLsb img.pixels _ hlen]
  have hchars : ∀ c ∈ t ++ delim, c < 256 := by
    intro c hc
    rcases List.mem_append.mp hc with h1 | h2
    · exact hchar c h1
    · exact delim_chars_lt c h2
  rw [binaryToText_textToBinary (t ++ delim) _ hchars, List.append_assoc,
    takeBeforeDelim_append_extend delim (by decide) t _ hdelim]
  simp only [henc, Bool.false_eq_true, if_false]

/-- Witness for C1: the text `"hi"` round-trips through an 8×5 all-black
carrier. -/
theorem lsb_round_trip_conditional_witness :
    imgBorderCE.pixels.length = imgBorderCE.width * imgBorderCE.height
    ∧ (∀ c ∈ [104, 105], c < 256)
    ∧ (textToBinary ([104, 105] ++ delim)).length
        ≤ imgBorderCE.width * imgBorderCE.height * 3
    ∧ takeBeforeDelim delim ([104, 105] ++ delim) = some [104, 105]
    ∧ startsWithTB encTag [104, 105] = false
    ∧ Except.bind (hideTextLsb idCrypt false none [104, 105] imgBorderCE)
        (fun out => extractTextLsb idCrypt false none out.image)
        = Except.ok [104, 105] :=
  ⟨by decide, by decide, by decide, by decide, by decide,
   lsb_round_trip_conditional idCrypt idCrypt imgBorderCE [104, 105]
     (by decide) (by decide) (by decide) (by decide) (by decide)⟩

/-- Counterexample for C1 as literally stated: the text `"###END"` fits the
8×5 carrier (120 bits of payload for 120 slots), but because
`"###END" + "###END###"` contains the delimiter already at position 0,
extraction after embedding returns the empty string instead of the text. -/
theorem lsb_round_trip_fails_on_delimiter_border :
    (textToBinary ([35, 35, 35, 69, 78, 68] ++ delim)).length
      ≤ imgBorderCE.width * imgBorderCE.height * 3
    ∧ Except.bind
        (hideTextLsb idCrypt false none [35, 35, 35, 69, 78, 68] imgBorderCE)
        (fun out => extractTextLsb idCrypt false none out.image)
      = Except.ok []
    ∧ ([] : List Nat) ≠ [35, 35, 35, 69, 78, 68] := by
  refine ⟨by decide, ?_, by decide⟩
  rfl
